import Mathlib

/-!
Verification of the exact-cover brute-force search from the notebook
`community/optimization/exact_cover.ipynb`.

The notebook defines `brute_force`, which enumerates every integer
`i ∈ [0, 2^L)` (where `L` is the number of subsets), builds the candidate
inclusion vector `bitfield i L` from `np.binary_repr(i, L)`, and returns the
first candidate accepted by `exact_cover.check_solution_satisfiability`,
together with a flag `has_sol`.
-/

namespace ExactCover

/-- A 0/1 inclusion vector: every entry of the list is `0` or `1`. -/
def binaryVec (v : List Nat) : Prop := ∀ d ∈ v, d = 0 ∨ d = 1

instance (v : List Nat) : Decidable (binaryVec v) :=
  inferInstanceAs (Decidable (∀ d ∈ v, d = 0 ∨ d = 1))

/-- Big-endian value of a digit string: the integer whose binary expansion
(most significant digit first) is the given list. -/
def beVal (v : List Nat) : Nat := v.foldl (fun a d => 2 * a + d) 0

/-- Fuelled big-endian binary digits of a natural number: `bitsBEGo fuel n`
computes the digits of `bin(n)` (empty for `n = 0`), provided `n ≤ fuel`. -/
def bitsBEGo : Nat → Nat → List Nat
  | _, 0 => []
  | 0, _ => []
  | fuel + 1, n + 1 => bitsBEGo fuel ((n + 1) / 2) ++ [(n + 1) % 2]

/-- Big-endian binary digits of `n`, as produced by Python `bin(n)[2:]`
(and empty for `n = 0`, the case numpy special-cases separately). -/
def bitsBE (n : Nat) : List Nat := bitsBEGo n n

/-- Digits of `np.binary_repr(n, L)` for nonnegative `n`, modelled after
numpy's implementation: for `n = 0` the result is the string
`'0' * (width or 1)` (note: one single zero when the width is `0`), and for
`n > 0` it is `bin(n)[2:]` left-padded with zeros to length
`max(bit_length n, L)` (`str.zfill`). -/
def binary_repr (n L : Nat) : List Nat :=
  if n = 0 then List.replicate (max L 1) 0
  else List.replicate (L - (bitsBE n).length) 0 ++ bitsBE n

/-- The inner helper `bitfield` of `brute_force` in the notebook:
`[int(digit) for digit in np.binary_repr(n, L)]`. -/
def bitfield (n L : Nat) : List Nat := binary_repr n L

/-- Modelled from the spec: `qiskit.aqua.translators.ising.exact_cover.
check_solution_satisfiability` belongs to the external library and is not part
of this repository's source; following the spec, a vector is declared a
solution iff for every element of the ground set `X` (the union of all
subsets), the number of included subsets containing that element equals
exactly one. -/
def check_solution_satisfiability (sol : List Nat) (list_of_subsets : List (List Int)) : Bool :=
  list_of_subsets.flatten.all fun x =>
    (sol.zip list_of_subsets).countP (fun p => p.1 == 1 && p.2.contains x) == 1

/-- The enumeration loop of `brute_force`: walks the remaining candidate
indices, keeping the Python variable `cur` (last candidate built); returns
`(has_sol, cur, number of satisfiability checks performed)`. -/
def bruteForceAux (S : List (List Int)) (L : Nat) : List Nat → List Nat → Bool × List Nat × Nat
  | cur, [] => (false, cur, 0)
  | _, i :: rest =>
    if check_solution_satisfiability (bitfield i L) S then (true, bitfield i L, 1)
    else
      let r := bruteForceAux S L (bitfield i L) rest
      (r.1, r.2.1, r.2.2 + 1)

/-- The notebook's `brute_force`: try `i = 0, 1, ..., 2^L - 1` in order and
return `(has_sol, cur)`. The initial `cur` placeholder `[]` is never returned
because `range (2^L)` is nonempty (in Python, `cur` before the loop is simply
unbound). -/
def brute_force (S : List (List Int)) : Bool × List Nat :=
  ((bruteForceAux S S.length [] (List.range (2 ^ S.length))).1,
   (bruteForceAux S S.length [] (List.range (2 ^ S.length))).2.1)

/-- Number of satisfiability checks a run of `brute_force` performs. -/
def brute_force_checks (S : List (List Int)) : Nat :=
  (bruteForceAux S S.length [] (List.range (2 ^ S.length))).2.2

/-- Output line the notebook prints after the brute-force cell. -/
def notebook_output (S : List (List Int)) : String :=
  if (brute_force S).1 then "Solution is " ++ toString (brute_force S).2
  else "No solution is found"

/-- State-passing translation of the external satisfiability check: it reads
the ambient `list_of_subsets` binding and performs no assignment to it. -/
def check_solution_satisfiability_st (sol : List Nat) (st : List (List Int)) :
    Bool × List (List Int) :=
  (check_solution_satisfiability sol st, st)

/-- State-passing translation of the loop of `brute_force`, threading the
ambient `list_of_subsets` binding through every statement that touches it. -/
def bruteForceAuxSt (L : Nat) :
    List Nat → List Nat → List (List Int) → (Bool × List Nat) × List (List Int)
  | cur, [], st => ((false, cur), st)
  | _, i :: rest, st =>
    let p := check_solution_satisfiability_st (bitfield i L) st
    if p.1 then ((true, bitfield i L), p.2)
    else bruteForceAuxSt L (bitfield i L) rest p.2

/-- State-passing translation of `brute_force`: the state is the ambient
`list_of_subsets` the closure reads. -/
def brute_force_st (st : List (List Int)) : (Bool × List Nat) × List (List Int) :=
  bruteForceAuxSt st.length [] (List.range (2 ^ st.length)) st

/-- Loop of `brute_force` against a fallible satisfiability check: an error
raised by the check aborts the loop and propagates (Python exception
semantics; the notebook installs no handler). -/
def bruteForceAuxE (chk : List Nat → List (List Int) → Except String Bool)
    (S : List (List Int)) (L : Nat) :
    List Nat → List Nat → Except String (Bool × List Nat)
  | cur, [] => Except.ok (false, cur)
  | _, i :: rest =>
    match chk (bitfield i L) S with
    | Except.error e => Except.error e
    | Except.ok true => Except.ok (true, bitfield i L)
    | Except.ok false => bruteForceAuxE chk S L (bitfield i L) rest

/-- `brute_force` against a fallible satisfiability check. -/
def brute_forceE (chk : List Nat → List (List Int) → Except String Bool)
    (S : List (List Int)) : Except String (Bool × List Nat) :=
  bruteForceAuxE chk S S.length [] (List.range (2 ^ S.length))

/-- Top-level run of the brute-force part of the notebook: `loaded` is the
outcome of `open` + `json.load` on the input file, `chk` the (possibly
failing) external satisfiability check; the notebook installs no handler, so
any failure propagates and no printed result is produced. -/
def notebook_run (loaded : Except String (List (List Int)))
    (chk : List Nat → List (List Int) → Except String Bool) : Except String String :=
  match loaded with
  | Except.error e => Except.error e
  | Except.ok S =>
    match brute_forceE chk S with
    | Except.error e => Except.error e
    | Except.ok r =>
      Except.ok (if r.1 then "Solution is " ++ toString r.2 else "No solution is found")

/-! ## Lemmas about binary digit strings -/

theorem beVal_nil : beVal [] = 0 := rfl

theorem beVal_foldl (l : List Nat) :
    ∀ a : Nat, l.foldl (fun a d => 2 * a + d) a = a * 2 ^ l.length + beVal l := by
  induction l with
  | nil => intro a; simp [beVal]
  | cons d l ih =>
    intro a
    have hd : beVal (d :: l) = d * 2 ^ l.length + beVal l := by
      show List.foldl _ (2 * 0 + d) l = _
      simpa using ih d
    simp only [List.foldl_cons, List.length_cons, hd]
    rw [ih (2 * a + d)]
    ring

theorem beVal_cons (d : Nat) (l : List Nat) :
    beVal (d :: l) = d * 2 ^ l.length + beVal l := by
  show List.foldl _ (2 * 0 + d) l = _
  simpa using beVal_foldl l d

theorem beVal_append (l₁ l₂ : List Nat) :
    beVal (l₁ ++ l₂) = beVal l₁ * 2 ^ l₂.length + beVal l₂ := by
  show List.foldl _ _ (l₁ ++ l₂) = _
  rw [List.foldl_append]
  exact beVal_foldl l₂ (beVal l₁)

theorem beVal_replicate_zero (k : Nat) : beVal (List.replicate k 0) = 0 := by
  induction k with
  | zero => rfl
  | succ k ih => rw [List.replicate_succ, beVal_cons, ih]; simp

theorem beVal_replicate_one (k : Nat) : beVal (List.replicate k 1) = 2 ^ k - 1 := by
  induction k with
  | zero => rfl
  | succ k ih =>
    have hpos : 0 < 2 ^ k := pow_pos (by norm_num) k
    rw [List.replicate_succ, beVal_cons, ih, List.length_replicate, pow_succ]
    omega

theorem binaryVec_nil : binaryVec [] := by
  intro d hd; simp at hd

theorem binaryVec_cons_tail {d : Nat} {l : List Nat} (h : binaryVec (d :: l)) :
    binaryVec l :=
  fun x hx => h x (List.mem_cons_of_mem d hx)

theorem binaryVec_cons_head {d : Nat} {l : List Nat} (h : binaryVec (d :: l)) :
    d = 0 ∨ d = 1 :=
  h d (List.mem_cons_self d l)

theorem binaryVec_replicate_zero (k : Nat) : binaryVec (List.replicate k 0) :=
  fun _ hx => Or.inl (List.eq_of_mem_replicate hx)

theorem binaryVec_replicate_one (k : Nat) : binaryVec (List.replicate k 1) :=
  fun _ hx => Or.inr (List.eq_of_mem_replicate hx)

theorem binaryVec_append {l₁ l₂ : List Nat} (h₁ : binaryVec l₁) (h₂ : binaryVec l₂) :
    binaryVec (l₁ ++ l₂) := by
  intro x hx
  rcases List.mem_append.mp hx with h | h
  · exact h₁ x h
  · exact h₂ x h

theorem beVal_lt_of_binary (v : List Nat) (h : binaryVec v) :
    beVal v < 2 ^ v.length := by
  induction v with
  | nil => simp [beVal]
  | cons d l ih =>
    have hd := binaryVec_cons_head h
    have hl := ih (binaryVec_cons_tail h)
    rw [beVal_cons, List.length_cons, pow_succ]
    rcases hd with rfl | rfl <;> omega

theorem beVal_inj : ∀ v w : List Nat, binaryVec v → binaryVec w →
    v.length = w.length → beVal v = beVal w → v = w := by
  intro v
  induction v with
  | nil =>
    intro w _ _ hlen _
    exact (List.length_eq_zero.mp hlen.symm).symm
  | cons d v' ih =>
    intro w hv hw hlen hval
    cases w with
    | nil => simp at hlen
    | cons e w' =>
      have hlen' : v'.length = w'.length := by simpa using hlen
      have hd := binaryVec_cons_head hv
      have he := binaryVec_cons_head hw
      have hv' := binaryVec_cons_tail hv
      have hw' := binaryVec_cons_tail hw
      have hb1 : beVal v' < 2 ^ w'.length := by
        rw [← hlen']; exact beVal_lt_of_binary v' hv'
      have hb2 : beVal w' < 2 ^ w'.length := beVal_lt_of_binary w' hw'
      rw [beVal_cons, beVal_cons, hlen'] at hval
      have hpos : 0 < 2 ^ w'.length := pow_pos (by norm_num) _
      have hde : d = e ∧ beVal v' = beVal w' := by
        rcases hd with rfl | rfl <;> rcases he with rfl | rfl <;>
          constructor <;> omega
      rw [hde.1, ih w' hv' hw' hlen' hde.2]

/-! ## Lemmas about `bitsBE`, `binary_repr` and `bitfield` -/

theorem bitsBEGo_zero (fuel : Nat) : bitsBEGo fuel 0 = [] := by
  cases fuel <;> rfl

theorem bitsBEGo_succ (fuel n : Nat) :
    bitsBEGo (fuel + 1) (n + 1) = bitsBEGo fuel ((n + 1) / 2) ++ [(n + 1) % 2] := rfl

theorem bitsBEGo_beVal : ∀ fuel n, n ≤ fuel → beVal (bitsBEGo fuel n) = n := by
  intro fuel
  induction fuel with
  | zero =>
    intro n hn
    obtain rfl : n = 0 := Nat.le_zero.mp hn
    rfl
  | succ f ih =>
    intro n hn
    match n with
    | 0 => rw [bitsBEGo_zero]; rfl
    | m + 1 =>
      rw [bitsBEGo_succ, beVal_append, ih ((m + 1) / 2) (by omega)]
      have : beVal [(m + 1) % 2] = (m + 1) % 2 := by
        rw [show ((m + 1) % 2 :: ([] : List Nat)) = [(m + 1) % 2] from rfl] at *
        rw [beVal_cons, beVal_nil]; simp
      rw [this]
      simp only [List.length_cons, List.length_nil]
      omega

theorem bitsBEGo_binary : ∀ fuel n, binaryVec (bitsBEGo fuel n) := by
  intro fuel
  induction fuel with
  | zero =>
    intro n
    cases n <;> exact binaryVec_nil
  | succ f ih =>
    intro n
    match n with
    | 0 => rw [bitsBEGo_zero]; exact binaryVec_nil
    | m + 1 =>
      rw [bitsBEGo_succ]
      refine binaryVec_append (ih _) ?_
      intro x hx
      simp at hx
      omega

theorem bitsBEGo_length : ∀ fuel n L, n ≤ fuel → n < 2 ^ L →
    (bitsBEGo fuel n).length ≤ L := by
  intro fuel
  induction fuel with
  | zero =>
    intro n L hn _
    obtain rfl : n = 0 := Nat.le_zero.mp hn
    simp [bitsBEGo_zero]
  | succ f ih =>
    intro n L hn hlt
    match n with
    | 0 => simp [bitsBEGo_zero]
    | m + 1 =>
      cases L with
      | zero => simp at hlt
      | succ K =>
        rw [bitsBEGo_succ, List.length_append]
        have hdiv : (m + 1) / 2 < 2 ^ K := by
          have := pow_succ 2 K
          omega
        have := ih ((m + 1) / 2) K (by omega) hdiv
        simp only [List.length_cons, List.length_nil]
        omega

theorem bitsBE_beVal (n : Nat) : beVal (bitsBE n) = n :=
  bitsBEGo_beVal n n le_rfl

theorem bitsBE_binary (n : Nat) : binaryVec (bitsBE n) :=
  bitsBEGo_binary n n

theorem bitsBE_length {n L : Nat} (h : n < 2 ^ L) : (bitsBE n).length ≤ L :=
  bitsBEGo_length n n L le_rfl h

theorem bitfield_length (n L : Nat) (hL : 1 ≤ L) (hn : n < 2 ^ L) :
    (bitfield n L).length = L := by
  unfold bitfield binary_repr
  split
  · simp only [List.length_replicate]; omega
  · have := bitsBE_length hn
    simp only [List.length_append, List.length_replicate]
    omega

theorem bitfield_binary (n L : Nat) : binaryVec (bitfield n L) := by
  unfold bitfield binary_repr
  split
  · exact binaryVec_replicate_zero _
  · exact binaryVec_append (binaryVec_replicate_zero _) (bitsBE_binary n)

theorem bitfield_beVal (n L : Nat) : beVal (bitfield n L) = n := by
  unfold bitfield binary_repr
  split
  · rename_i h
    rw [beVal_replicate_zero, h]
  · rw [beVal_append, beVal_replicate_zero, bitsBE_beVal]
    simp

theorem bitfield_canonical (v : List Nat) (L : Nat) (hL : 1 ≤ L)
    (hv : binaryVec v) (hlen : v.length = L) : bitfield (beVal v) L = v := by
  have hlt : beVal v < 2 ^ L := hlen ▸ beVal_lt_of_binary v hv
  exact beVal_inj (bitfield (beVal v) L) v (bitfield_binary _ _) hv
    (by rw [bitfield_length _ _ hL hlt, hlen]) (bitfield_beVal _ _)

theorem bitfield_allones (L : Nat) (hL : 1 ≤ L) :
    bitfield (2 ^ L - 1) L = List.replicate L 1 := by
  have := bitfield_canonical (List.replicate L 1) L hL
    (binaryVec_replicate_one L) (List.length_replicate L 1)
  rw [beVal_replicate_one] at this
  exact this

/-! ## Lemmas about the satisfiability check -/

theorem countP_zip_eq_countP_range :
    ∀ (S : List (List Int)) (sol : List Nat) (x : Int), sol.length = S.length →
      (sol.zip S).countP (fun p => p.1 == 1 && p.2.contains x) =
      (List.range S.length).countP
        (fun i => (sol.getD i 0 == 1) && ((S.getD i []).contains x)) := by
  intro S
  induction S with
  | nil =>
    intro sol x _
    simp
  | cons s S' ih =>
    intro sol x hlen
    cases sol with
    | nil => simp at hlen
    | cons d sol' =>
      have hlen' : sol'.length = S'.length := by simpa using hlen
      have hh : ∀ i, ((fun i => (List.getD (d :: sol') i 0 == 1) &&
          ((List.getD (s :: S') i []).contains x)) ∘ Nat.succ) i =
          (fun i => (sol'.getD i 0 == 1) && ((S'.getD i []).contains x)) i := by
        intro i
        rfl
      rw [List.zip_cons_cons, List.countP_cons, List.length_cons,
        List.range_succ_eq_map, List.countP_cons, List.countP_map, funext hh,
        ih sol' x hlen']
      rfl

/-- Claim C4: the satisfiability check returns `true` iff every element of the
ground set (the union of all subsets) is contained in exactly one subset
included by the 0/1 vector `sol`. -/
theorem check_solution_satisfiability_spec (sol : List Nat) (S : List (List Int))
    (hlen : sol.length = S.length) :
    check_solution_satisfiability sol S = true ↔
      ∀ x : Int, x ∈ S.flatten →
        (List.range S.length).countP
          (fun i => (sol.getD i 0 == 1) && ((S.getD i []).contains x)) = 1 := by
  unfold check_solution_satisfiability
  rw [List.all_eq_true]
  constructor
  · intro h x hx
    have := h x hx
    rw [beq_iff_eq] at this
    rw [← countP_zip_eq_countP_range S sol x hlen]
    exact this
  · intro h x hx
    rw [beq_iff_eq, countP_zip_eq_countP_range S sol x hlen]
    exact h x hx

/-! ## Lemmas about the enumeration loop -/

theorem bruteForceAux_nil (S : List (List Int)) (L : Nat) (cur : List Nat) :
    bruteForceAux S L cur [] = (false, cur, 0) := rfl

theorem bruteForceAux_cons (S : List (List Int)) (L : Nat) (cur : List Nat)
    (i : Nat) (rest : List Nat) :
    bruteForceAux S L cur (i :: rest) =
      if check_solution_satisfiability (bitfield i L) S then (true, bitfield i L, 1)
      else ((bruteForceAux S L (bitfield i L) rest).1,
            (bruteForceAux S L (bitfield i L) rest).2.1,
            (bruteForceAux S L (bitfield i L) rest).2.2 + 1) := rfl

theorem bruteForceAux_count_le (S : List (List Int)) (L : Nat) :
    ∀ (l : List Nat) (cur : List Nat), (bruteForceAux S L cur l).2.2 ≤ l.length := by
  intro l
  induction l with
  | nil => intro cur; simp [bruteForceAux_nil]
  | cons i rest ih =>
    intro cur
    rw [bruteForceAux_cons]
    cases hc : check_solution_satisfiability (bitfield i L) S with
    | true => simp [hc]
    | false =>
      have := ih (bitfield i L)
      simp only [hc, if_false, Bool.false_eq_true, List.length_cons]
      omega

theorem bruteForceAux_all_false (S : List (List Int)) (L : Nat) :
    ∀ (l : List Nat) (cur : List Nat),
      (∀ i ∈ l, check_solution_satisfiability (bitfield i L) S = false) →
      bruteForceAux S L cur l =
        (false, l.foldl (fun _ i => bitfield i L) cur, l.length) := by
  intro l
  induction l with
  | nil => intro cur _; simp [bruteForceAux_nil]
  | cons i rest ih =>
    intro cur h
    have hi : check_solution_satisfiability (bitfield i L) S = false :=
      h i (List.mem_cons_self i rest)
    rw [bruteForceAux_cons, ih (bitfield i L) (fun j hj => h j (List.mem_cons_of_mem i hj))]
    simp [hi, List.foldl_cons]

theorem bruteForceAux_first (S : List (List Int)) (L : Nat) :
    ∀ l : List Nat, l.Pairwise (· < ·) → ∀ (cur : List Nat) (i : Nat), i ∈ l →
      check_solution_satisfiability (bitfield i L) S = true →
      (∀ j, j < i → check_solution_satisfiability (bitfield j L) S = false) →
      (bruteForceAux S L cur l).1 = true ∧
      (bruteForceAux S L cur l).2.1 = bitfield i L := by
  intro l
  induction l with
  | nil => intro _ cur i hi; simp at hi
  | cons a rest ih =>
    intro hp cur i hi hsat hmin
    rw [bruteForceAux_cons]
    cases hca : check_solution_satisfiability (bitfield a L) S with
    | true =>
      have hia : i = a := by
        rcases List.mem_cons.mp hi with rfl | hir
        · rfl
        · have hai : a < i := (List.pairwise_cons.mp hp).1 i hir
          have hfa := hmin a hai
          rw [hfa] at hca
          simp at hca
      subst hia
      simp [hca]
    | false =>
      have hir : i ∈ rest := by
        rcases List.mem_cons.mp hi with rfl | h
        · rw [hsat] at hca; simp at hca
        · exact h
      have hrest := ih (List.pairwise_cons.mp hp).2 (bitfield a L) i hir hsat hmin
      simp only [hca, if_false, Bool.false_eq_true]
      exact hrest

/-! ## Helper lemmas shared by the top-level theorems -/

theorem all_candidates_false (S : List (List Int)) (hS : S ≠ [])
    (h : ∀ v, v.length = S.length → binaryVec v →
      check_solution_satisfiability v S = false) :
    ∀ i ∈ List.range (2 ^ S.length),
      check_solution_satisfiability (bitfield i S.length) S = false := by
  intro i hi
  have hL : 1 ≤ S.length := List.length_pos.mpr hS
  exact h (bitfield i S.length)
    (bitfield_length i S.length hL (List.mem_range.mp hi))
    (bitfield_binary i S.length)

theorem no_sol_run (S : List (List Int))
    (h : ∀ i ∈ List.range (2 ^ S.length),
      check_solution_satisfiability (bitfield i S.length) S = false) :
    (brute_force S).1 = false ∧ brute_force_checks S = 2 ^ S.length := by
  have haux := bruteForceAux_all_false S S.length (List.range (2 ^ S.length)) [] h
  constructor
  · show (bruteForceAux S S.length [] (List.range (2 ^ S.length))).1 = false
    rw [haux]
  · show (bruteForceAux S S.length [] (List.range (2 ^ S.length))).2.2 = 2 ^ S.length
    rw [haux]
    simp [List.length_range]

theorem binary_false_of_candidates (S : List (List Int))
    (h : ∀ i, i < 2 ^ S.length →
      check_solution_satisfiability (bitfield i S.length) S = false) :
    ∀ v, v.length = S.length → binaryVec v →
      check_solution_satisfiability v S = false := by
  intro v hlen hbin
  by_cases hS : S = []
  · subst hS
    have h0 := h 0 (by norm_num)
    exact absurd h0 (by decide)
  · have hL : 1 ≤ S.length := List.length_pos.mpr hS
    have hc : bitfield (beVal v) S.length = v :=
      bitfield_canonical v S.length hL hbin hlen
    rw [← hc]
    exact h (beVal v) (hlen ▸ beVal_lt_of_binary v hbin)

/-! ## Lemmas about the state-passing and fallible variants -/

theorem bruteForceAuxSt_cons (L : Nat) (cur : List Nat) (i : Nat)
    (rest : List Nat) (st : List (List Int)) :
    bruteForceAuxSt L cur (i :: rest) st =
      if check_solution_satisfiability (bitfield i L) st then ((true, bitfield i L), st)
      else bruteForceAuxSt L (bitfield i L) rest st := rfl

theorem bruteForceAuxSt_spec (L : Nat) :
    ∀ (l cur : List Nat) (st : List (List Int)),
      bruteForceAuxSt L cur l st =
        (((bruteForceAux st L cur l).1, (bruteForceAux st L cur l).2.1), st) := by
  intro l
  induction l with
  | nil => intro cur st; rfl
  | cons i rest ih =>
    intro cur st
    rw [bruteForceAuxSt_cons, bruteForceAux_cons]
    cases hc : check_solution_satisfiability (bitfield i L) st with
    | true => simp [hc]
    | false => simp [hc, ih (bitfield i L) st]

theorem bruteForceAuxE_ok (S : List (List Int)) (L : Nat) :
    ∀ (l cur : List Nat),
      bruteForceAuxE (fun v T => Except.ok (check_solution_satisfiability v T)) S L cur l =
        Except.ok ((bruteForceAux S L cur l).1, (bruteForceAux S L cur l).2.1) := by
  intro l
  induction l with
  | nil => intro cur; rfl
  | cons i rest ih =>
    intro cur
    rw [bruteForceAux_cons]
    cases hc : check_solution_satisfiability (bitfield i L) S with
    | true => simp [bruteForceAuxE, hc]
    | false => simp [bruteForceAuxE, hc, ih (bitfield i L)]

theorem bruteForceAuxE_error (S : List (List Int)) (L : Nat) (e : String) :
    ∀ (l cur : List Nat), l ≠ [] →
      bruteForceAuxE (fun _ _ => Except.error e) S L cur l = Except.error e := by
  intro l cur h
  cases l with
  | nil => exact absurd rfl h
  | cons i rest => rfl

/-! ## Claim theorems -/

/-- Claim C1 (amended to nonempty subset lists): for every nonempty list of
subsets, if some 0/1 assignment of length `L` satisfies the cover condition,
`brute_force` returns `has_sol = true` together with the candidate of the
smallest satisfying integer `i < 2^L` (whose `L`-bit big-endian expansion the
returned vector is); if no assignment satisfies, it returns `has_sol = false`
after exactly `2^L` checks; and two runs on the same input agree. -/
theorem brute_force_first_satisfying (S : List (List Int)) (hS : S ≠ []) :
    ((∃ v, v.length = S.length ∧ binaryVec v ∧
        check_solution_satisfiability v S = true) →
      ∃ i, i < 2 ^ S.length ∧
        check_solution_satisfiability (bitfield i S.length) S = true ∧
        (∀ j, j < i → check_solution_satisfiability (bitfield j S.length) S = false) ∧
        beVal (bitfield i S.length) = i ∧
        brute_force S = (true, bitfield i S.length)) ∧
    ((∀ v, v.length = S.length → binaryVec v →
        check_solution_satisfiability v S = false) →
      (brute_force S).1 = false ∧ brute_force_checks S = 2 ^ S.length) ∧
    brute_force S = brute_force S := by
  have hL : 1 ≤ S.length := List.length_pos.mpr hS
  refine ⟨?_, ?_, rfl⟩
  · rintro ⟨v, hlen, hbin, hsat⟩
    have hvlt : beVal v < 2 ^ S.length := hlen ▸ beVal_lt_of_binary v hbin
    have hPsat : check_solution_satisfiability (bitfield (beVal v) S.length) S = true := by
      rw [bitfield_canonical v S.length hL hbin hlen]
      exact hsat
    have hex : ∃ i, check_solution_satisfiability (bitfield i S.length) S = true :=
      ⟨beVal v, hPsat⟩
    have hlt : Nat.find hex < 2 ^ S.length :=
      lt_of_le_of_lt (Nat.find_min' hex hPsat) hvlt
    have hmin : ∀ j, j < Nat.find hex →
        check_solution_satisfiability (bitfield j S.length) S = false := by
      intro j hj
      cases hb : check_solution_satisfiability (bitfield j S.length) S with
      | false => rfl
      | true => exact absurd hb (Nat.find_min hex hj)
    have hfirst := bruteForceAux_first S S.length (List.range (2 ^ S.length))
      (List.pairwise_lt_range _) [] (Nat.find hex) (List.mem_range.mpr hlt)
      (Nat.find_spec hex) hmin
    refine ⟨Nat.find hex, hlt, Nat.find_spec hex, hmin, bitfield_beVal _ _, ?_⟩
    show ((bruteForceAux S S.length [] (List.range (2 ^ S.length))).1,
      (bruteForceAux S S.length [] (List.range (2 ^ S.length))).2.1) = _
    rw [hfirst.1, hfirst.2]
  · intro h
    exact no_sol_run S (all_candidates_false S hS h)

/-- Witness for C1 at the notebook's literal input. -/
theorem brute_force_first_satisfying_witness :
    ∃ i, i < 2 ^ (4 : Nat) ∧
      check_solution_satisfiability (bitfield i 4) [[2,3,4],[1,2],[3,4],[1,2,3]] = true ∧
      (∀ j, j < i →
        check_solution_satisfiability (bitfield j 4) [[2,3,4],[1,2],[3,4],[1,2,3]] = false) ∧
      beVal (bitfield i 4) = i ∧
      brute_force [[2,3,4],[1,2],[3,4],[1,2,3]] = (true, bitfield i 4) :=
  (brute_force_first_satisfying [[2,3,4],[1,2],[3,4],[1,2,3]] (by decide)).1
    ⟨[0,1,1,0], rfl, by decide, by decide⟩

/-- Counterexample to C1 as stated: on the empty subset list the empty
assignment (the only element of the 0-dimensional cube, whose 0-bit expansion
is empty) satisfies the cover condition, yet `brute_force` returns the
1-element vector `[0]`, which is not an assignment over the 0 subsets. -/
theorem brute_force_empty_not_an_assignment :
    check_solution_satisfiability [] ([] : List (List Int)) = true ∧
    brute_force ([] : List (List Int)) = (true, [0]) ∧
    (brute_force ([] : List (List Int))).2.length ≠ ([] : List (List Int)).length := by
  decide

/-- Claim C2: on the notebook's literal input the search returns
`has_sol = true` with the vector `[0,1,1,0]`, and that vector satisfies the
exact-cover condition. -/
theorem brute_force_sample_solution :
    brute_force [[2,3,4],[1,2],[3,4],[1,2,3]] = (true, [0,1,1,0]) ∧
    check_solution_satisfiability [0,1,1,0] [[2,3,4],[1,2],[3,4],[1,2,3]] = true := by
  decide

/-- Counterexample to C3 as stated: on the empty subset list `brute_force`
reports `has_sol = true`, not `false`. -/
theorem brute_force_empty_has_sol_true :
    (brute_force ([] : List (List Int))).1 = true := by decide

/-- Claim C3 (amended): on the empty subset list `brute_force` terminates
immediately, after a single satisfiability check, but returns
`has_sol = true` with the vector `[0]` (`np.binary_repr(0, 0)` is the
one-character string `"0"`, and the cover condition is vacuously satisfied
over the empty ground set). -/
theorem brute_force_empty_behavior :
    brute_force ([] : List (List Int)) = (true, [0]) ∧
    brute_force_checks ([] : List (List Int)) = 1 := by decide

/-- Witness for C4 at the notebook's literal input and solution vector. -/
theorem check_solution_satisfiability_spec_witness :
    check_solution_satisfiability [0,1,1,0] [[2,3,4],[1,2],[3,4],[1,2,3]] = true ↔
      ∀ x : Int, x ∈ ([[2,3,4],[1,2],[3,4],[1,2,3]] : List (List Int)).flatten →
        (List.range ([[2,3,4],[1,2],[3,4],[1,2,3]] : List (List Int)).length).countP
          (fun i => (([0,1,1,0] : List Nat).getD i 0 == 1) &&
            ((([[2,3,4],[1,2],[3,4],[1,2,3]] : List (List Int)).getD i []).contains x)) = 1 :=
  check_solution_satisfiability_spec [0,1,1,0] [[2,3,4],[1,2],[3,4],[1,2,3]] rfl

/-- Counterexample to C5 as stated: for `i = 0 < 2^0` with `L = 0` subsets,
`bitfield 0 0` is the 1-entry list `[0]`, not a list of exactly `L = 0`
entries. -/
theorem bitfield_width_zero_length :
    (0 : Nat) < 2 ^ (0 : Nat) ∧ (bitfield 0 0).length ≠ 0 ∧ bitfield 0 0 = [0] := by
  decide

/-- Claim C5 (amended to `L ≥ 1`): for every `i < 2^L` with `L ≥ 1`,
`bitfield i L` is a list of exactly `L` entries, each `0` or `1`, whose
big-endian binary value is `i`. -/
theorem bitfield_binary_expansion (i L : Nat) (hL : 1 ≤ L) (hi : i < 2 ^ L) :
    (bitfield i L).length = L ∧ binaryVec (bitfield i L) ∧ beVal (bitfield i L) = i :=
  ⟨bitfield_length i L hL hi, bitfield_binary i L, bitfield_beVal i L⟩

/-- Witness for C5 at `i = 6`, `L = 4`. -/
theorem bitfield_binary_expansion_witness :
    (bitfield 6 4).length = 4 ∧ binaryVec (bitfield 6 4) ∧ beVal (bitfield 6 4) = 6 :=
  bitfield_binary_expansion 6 4 (by decide) (by decide)

/-- Claim C6: `brute_force` (a total function here, hence terminating)
performs at most `2^L` satisfiability checks, and when no 0/1 assignment of
length `L` satisfies the cover condition it performs exactly `2^L` checks and
reports failure. -/
theorem brute_force_check_count (S : List (List Int)) :
    brute_force_checks S ≤ 2 ^ S.length ∧
    ((∀ v, v.length = S.length → binaryVec v →
        check_solution_satisfiability v S = false) →
      brute_force_checks S = 2 ^ S.length ∧ (brute_force S).1 = false) := by
  constructor
  · show (bruteForceAux S S.length [] (List.range (2 ^ S.length))).2.2 ≤ _
    have := bruteForceAux_count_le S S.length (List.range (2 ^ S.length)) []
    simpa [List.length_range] using this
  · intro h
    by_cases hS : S = []
    · subst hS
      have h0 : check_solution_satisfiability [] [] = false := h [] rfl binaryVec_nil
      exact absurd h0 (by decide)
    · have hrun := no_sol_run S (all_candidates_false S hS h)
      exact ⟨hrun.2, hrun.1⟩

/-- Witness for C6 at an unsatisfiable instance with `L = 3`. -/
theorem brute_force_check_count_witness :
    brute_force_checks [[1,2],[2,3],[1,3]] = 2 ^ (3 : Nat) ∧
    (brute_force [[1,2],[2,3],[1,3]]).1 = false :=
  (brute_force_check_count [[1,2],[2,3],[1,3]]).2
    (binary_false_of_candidates [[1,2],[2,3],[1,3]] (by decide))

/-- Claim C7: the satisfiability check is deterministic — two evaluations on
equal arguments yield the same boolean. -/
theorem check_solution_satisfiability_deterministic
    (v₁ v₂ : List Nat) (S₁ S₂ : List (List Int)) (hv : v₁ = v₂) (hS : S₁ = S₂) :
    check_solution_satisfiability v₁ S₁ = check_solution_satisfiability v₂ S₂ := by
  rw [hv, hS]

/-- Witness for C7 at a concrete assignment and subset list. -/
theorem check_solution_satisfiability_deterministic_witness :
    check_solution_satisfiability [0,1] [[1],[2]] =
      check_solution_satisfiability [0,1] [[1],[2]] :=
  check_solution_satisfiability_deterministic [0,1] [0,1] [[1],[2]] [[1],[2]] rfl rfl

/-- Claim C8: the notebook installs no error handling — a failure of the
input-file load or of the satisfiability check propagates unchanged to the top
level and no result is produced, while on success a printed result is
produced. -/
theorem notebook_error_propagation :
    (∀ (e : String) (chk : List Nat → List (List Int) → Except String Bool),
        notebook_run (Except.error e) chk = Except.error e) ∧
    (∀ (S : List (List Int)) (e : String),
        notebook_run (Except.ok S) (fun _ _ => Except.error e) = Except.error e) ∧
    (∀ S : List (List Int),
        notebook_run (Except.ok S)
          (fun v T => Except.ok (check_solution_satisfiability v T)) =
        Except.ok (notebook_output S)) := by
  refine ⟨fun e chk => rfl, fun S e => ?_, fun S => ?_⟩
  · have hne : List.range (2 ^ S.length) ≠ [] := by
      simp [List.range_eq_nil]
    show (match brute_forceE (fun _ _ => Except.error e) S with
      | Except.error e => Except.error e
      | Except.ok r =>
        Except.ok (if r.1 then "Solution is " ++ toString r.2
          else "No solution is found")) = (Except.error e : Except String String)
    rw [show brute_forceE (fun _ _ => Except.error e) S = Except.error e from
      bruteForceAuxE_error S S.length e (List.range (2 ^ S.length)) [] hne]
  · show (match brute_forceE (fun v T => Except.ok (check_solution_satisfiability v T)) S with
      | Except.error e => Except.error e
      | Except.ok r =>
        Except.ok (if r.1 then "Solution is " ++ toString r.2
          else "No solution is found")) = Except.ok (notebook_output S)
    rw [show brute_forceE (fun v T => Except.ok (check_solution_satisfiability v T)) S =
      Except.ok ((bruteForceAux S S.length [] (List.range (2 ^ S.length))).1,
        (bruteForceAux S S.length [] (List.range (2 ^ S.length))).2.1) from
      bruteForceAuxE_ok S S.length (List.range (2 ^ S.length)) []]
    rfl

/-- Claim C9: on a nonempty subset list with no satisfying 0/1 assignment,
`brute_force` returns `has_sol = false` together with the all-ones vector of
length `L` — the bit pattern of `2^L - 1`, the last candidate enumerated —
which is in particular not empty. -/
theorem brute_force_no_solution_all_ones (S : List (List Int)) (hS : S ≠ [])
    (h : ∀ v, v.length = S.length → binaryVec v →
      check_solution_satisfiability v S = false) :
    brute_force S = (false, List.replicate S.length 1) ∧
    List.replicate S.length 1 = bitfield (2 ^ S.length - 1) S.length ∧
    (brute_force S).2 ≠ [] := by
  have hL : 1 ≤ S.length := List.length_pos.mpr hS
  have hall := all_candidates_false S hS h
  have haux := bruteForceAux_all_false S S.length (List.range (2 ^ S.length)) [] hall
  have hpos : 0 < 2 ^ S.length := pow_pos (by norm_num) _
  obtain ⟨m, hm⟩ : ∃ m, 2 ^ S.length = m + 1 := ⟨2 ^ S.length - 1, by omega⟩
  have hfold : (List.range (2 ^ S.length)).foldl (fun _ i => bitfield i S.length) [] =
      bitfield (2 ^ S.length - 1) S.length := by
    rw [hm, List.range_succ, List.foldl_append]
    simp
  have hbf : brute_force S = (false, bitfield (2 ^ S.length - 1) S.length) := by
    show ((bruteForceAux S S.length [] (List.range (2 ^ S.length))).1,
      (bruteForceAux S S.length [] (List.range (2 ^ S.length))).2.1) = _
    rw [haux]
    simp [hfold]
  have hone : List.replicate S.length 1 = bitfield (2 ^ S.length - 1) S.length :=
    (bitfield_allones S.length hL).symm
  refine ⟨by rw [hbf, ← hone], hone, ?_⟩
  rw [hbf]
  show bitfield (2 ^ S.length - 1) S.length ≠ []
  rw [← hone]
  intro hc
  have hlen2 : (List.replicate S.length (1 : Nat)).length = ([] : List Nat).length := by
    rw [hc]
  rw [List.length_replicate, List.length_nil] at hlen2
  omega

/-- Witness for C9 at an unsatisfiable instance with `L = 3`. -/
theorem brute_force_no_solution_all_ones_witness :
    brute_force [[1,2],[2,3],[1,3]] = (false, List.replicate 3 1) ∧
    List.replicate 3 1 = bitfield (2 ^ (3 : Nat) - 1) 3 ∧
    (brute_force [[1,2],[2,3],[1,3]]).2 ≠ [] :=
  brute_force_no_solution_all_ones [[1,2],[2,3],[1,3]] (by decide)
    (binary_false_of_candidates [[1,2],[2,3],[1,3]] (by decide))

/-- Claim C10: `brute_force` does not modify its input — in the state-passing
translation, the ambient `list_of_subsets` after the call equals its value
before the call, and the returned result agrees with the pure model. -/
theorem brute_force_preserves_input (st : List (List Int)) :
    (brute_force_st st).2 = st ∧ (brute_force_st st).1 = brute_force st := by
  have h := bruteForceAuxSt_spec st.length (List.range (2 ^ st.length)) [] st
  constructor
  · show (bruteForceAuxSt st.length [] (List.range (2 ^ st.length)) st).2 = st
    rw [h]
  · show (bruteForceAuxSt st.length [] (List.range (2 ^ st.length)) st).1 = brute_force st
    rw [h]
    rfl

end ExactCover
